import Mathlib

/-!
# Verification of the consensus worker (`pd/src/consensus/worker.rs`)

This file gives a shallow embedding of the consensus worker of the
Penumbra daemon and proves properties of it.  Pure functions of the
source become Lean functions; the worker's mutable state becomes
explicit state passing; Rust's machine integers become `Nat`/`Int`
with explicit reductions modulo `2^64` where overflow matters;
fallible code returns `Option` (a `panic!`/`expect`/`assert!` — a
fatal consensus fault — is `none`) or `Except String` (a recoverable
per-transaction error).

External crates (`penumbra_stake` rate arithmetic, the transaction
codec and verifiers, the state store) are out of scope of the source
under review; they enter the model as abstract parameters (`Ext`,
`Reader`) or as abstract data on the decoded transaction.
-/

namespace Penumbra

/-! ## Machine-integer semantics

The worker manipulates `u64` supplies and `i64` delegation deltas.
A `u64` value is a `Nat`; `checked_add`/`checked_sub` can fail.
`i64` values are `Int`s reduced into `[-2^63, 2^63)`; Rust's plain
`+=` on `i64` wraps silently in release builds, which `wrapI64`
makes explicit. -/

/-- Two's-complement reduction of an integer into the `i64` range
`[-2^63, 2^63)`; this is the value a Rust `i64` holds after a
wrapping (release-mode) arithmetic operation. -/
def wrapI64 (x : Int) : Int := (x + 2 ^ 63) % 2 ^ 64 - 2 ^ 63

/-- Release-mode `x.abs() as u64` for an `i64` value `x`:
`abs` wraps (only at `i64::MIN`), and the cast reinterprets the bits
as `u64`. -/
def i64AbsAsU64 (x : Int) : Nat := ((wrapI64 (Int.natAbs x)) % 2 ^ 64).toNat

/-- Rust `u64::checked_add`: `none` on overflow past `2^64 - 1`. -/
def checkedAddU64 (a b : Nat) : Option Nat :=
  if a + b < 2 ^ 64 then some (a + b) else none

/-- Rust `u64::checked_sub`: `none` when the subtrahend exceeds the
minuend. -/
def checkedSubU64 (a b : Nat) : Option Nat :=
  if b ≤ a then some (a - b) else none

/-! ## Association lists

`BTreeMap`/`HashMap`s of the source are embedded as association
lists; `insertAssoc` is `insert` (overwrite or append) and
`lookupAssoc` is `get`. -/

/-- Insert `(k, v)` into an association list, overwriting an existing
binding for `k` and otherwise appending. -/
def insertAssoc {α β : Type} [DecidableEq α] : List (α × β) → α → β → List (α × β)
  | [], k, v => [(k, v)]
  | p :: ps, k, v => if p.1 = k then (k, v) :: ps else p :: insertAssoc ps k v

/-- Look up the binding for `k` in an association list. -/
def lookupAssoc {α β : Type} [DecidableEq α] : List (α × β) → α → Option β
  | [], _ => none
  | p :: ps, k => if p.1 = k then some p.2 else lookupAssoc ps k

/-- The in-place `*map.entry(k).or_insert(0) += d` on `i64` values:
map-sum of the source, a plain `+=` that wraps silently in release
builds. -/
def bumpI64 (m : List (Nat × Int)) (k : Nat) (d : Int) : List (Nat × Int) :=
  insertAssoc m k (wrapI64 ((lookupAssoc m k).getD 0 + d))

/-! ## Staking data model (`penumbra_stake`) -/

/-- Validator states of the staking state machine. -/
inductive ValidatorState : Type
  | Active : ValidatorState
  | Inactive : ValidatorState
  | Unbonding : (unbondingEpoch : Nat) → ValidatorState
  | Slashed : ValidatorState
deriving DecidableEq, Repr

/-- Holds exactly on `Unbonding` states (the source's
`matches!(…, ValidatorState::Unbonding { .. })`). -/
def ValidatorState.isUnbonding : ValidatorState → Bool
  | ValidatorState.Unbonding _ => true
  | _ => false

/-- Per-validator exchange-rate data for one epoch. -/
structure RateData : Type where
  identityKey : Nat
  epochIndex : Nat
  validatorRewardRate : Nat
  validatorExchangeRate : Nat
deriving DecidableEq, Repr

/-- Chain-wide base rate for one epoch. -/
structure BaseRate : Type where
  epochIndex : Nat
  baseRewardRate : Nat
  baseExchangeRate : Nat
deriving DecidableEq, Repr

/-- A funding stream: a payout address plus a commission rate. -/
structure FundingStream : Type where
  address : Nat
  rateBps : Nat
deriving DecidableEq, Repr

/-- The externally visible view of a validator. -/
structure ValidatorStatus : Type where
  identityKey : Nat
  votingPower : Nat
  state : ValidatorState
deriving DecidableEq, Repr

/-- One entry of the store's `validator_info` table: identity and
consensus keys, the current rate data and the current status. -/
structure ValidatorInfo : Type where
  identityKey : Nat
  consensusKey : Nat
  rateData : RateData
  status : ValidatorStatus
deriving DecidableEq, Repr

/-- Asset identifiers that matter to the worker: the staking token
and the per-validator delegation tokens (`identity_key
.delegation_token().id()`, injective by construction). -/
inductive AssetId : Type
  | staking : AssetId
  | delegation : (identityKey : Nat) → AssetId
deriving DecidableEq, Repr

/-- Chain parameters read by the worker. -/
structure ChainParams : Type where
  epochDuration : Nat
  unbondingEpochs : Nat
  validatorLimit : Nat
  slashingPenalty : Nat
deriving DecidableEq, Repr

/-- The rate arithmetic of `penumbra_stake`, out of scope of the
source under review; the worker is verified for every choice of
these functions. -/
structure Ext : Type where
  /-- Rust `RateData::next(next_base_rate, funding_streams)`. -/
  rateNext : RateData → BaseRate → List FundingStream → RateData
  /-- Rust `RateData::unbonded_amount(delegation_amount)`. -/
  unbondedAmount : RateData → Nat → Nat
  /-- Rust `RateData::voting_power(delegation_supply, base_rate)`. -/
  votingPower : RateData → Nat → BaseRate → Nat
  /-- Rust `FundingStream::reward_amount(supply, next_base, current_base)`. -/
  rewardAmount : FundingStream → Nat → BaseRate → BaseRate → Nat
  /-- Rust `BaseRateData::next(reward_rate_bps)`. -/
  baseNext : BaseRate → Nat → BaseRate

/-- The state-store reader, a read-only snapshot consistent with the
last committed height. -/
structure Reader : Type where
  /-- Store `validator_info(true)`. -/
  validatorInfo : List ValidatorInfo
  /-- Store `funding_streams(identity_key)`. -/
  fundingStreams : Nat → List FundingStream
  /-- Store `asset_lookup(asset_id).map(total_supply)`. -/
  assetLookup : AssetId → Option Nat
  /-- Store `base_rate_data(epoch_index)`. -/
  baseRateData : Nat → BaseRate
  /-- Store `delegation_changes(prev_epoch)`: the persisted per-validator
  `i64` deltas of the epoch just closed. -/
  delegationChanges : List (Nat × Int)
  /-- Store `quarantined_notes(height?, validators?)`: pairs
  `(commitment, note_data)`. -/
  quarantinedNotes : Option Nat → List Nat → List (Nat × Nat)
  /-- Store `quarantined_nullifiers(height?, validators?)`. -/
  quarantinedNullifiers : Option Nat → List Nat → List Nat

/-- A decoded transaction after decode, with the outcomes of the
(out-of-scope) stateless and stateful verifiers carried as data. -/
structure Tx : Type where
  statelessOk : Bool
  statefulOk : Bool
  spentNullifiers : List Nat
  noteCommitments : List Nat
  delegationChanges : List (Nat × Int)
deriving DecidableEq, Repr

/-- The `PendingBlock` accumulator for one height. -/
structure PendingBlock : Type where
  height : Option Nat
  /-- Epoch index of the block (the epoch being closed at an epoch
  boundary). -/
  epoch : Option Nat
  noteCommitmentTree : List Nat
  spentNullifiers : List Nat
  revertingNotes : List Nat
  revertingNullifiers : List Nat
  unbondingNullifiers : List Nat
  /-- Field `supply_updates`: asset id to total supply.  The denomination
  component of the source pair is determined by the asset id and is
  omitted. -/
  supplyUpdates : List (AssetId × Nat)
  slashedValidators : List Nat
  delegationChanges : List (Nat × Int)
  rewardNotes : List (Nat × Nat)
  validatorInfos : List ValidatorInfo
  /-- The validator state machine's per-validator state table. -/
  machineStates : List (Nat × ValidatorState)
  /-- Record of `(consensus_key, penalty)` slashings applied this
  block. -/
  slashEvents : List (Nat × Nat)
  nextRates : Option (List RateData)
  nextBaseRate : Option BaseRate
  nextValidatorStatuses : Option (List ValidatorStatus)
deriving DecidableEq, Repr

/-- Modelled from the spec: `PendingBlock::new` (not under `src/`)
clones the live accumulator and loads validator info; the state
machine is the per-validator state table from the loaded info. -/
def PendingBlock.new (tree : List Nat) (infos : List ValidatorInfo) : PendingBlock where
  height := none
  epoch := none
  noteCommitmentTree := tree
  spentNullifiers := []
  revertingNotes := []
  revertingNullifiers := []
  unbondingNullifiers := []
  supplyUpdates := []
  slashedValidators := []
  delegationChanges := []
  rewardNotes := []
  validatorInfos := infos
  machineStates := infos.map (fun i => (i.identityKey, i.status.state))
  slashEvents := []
  nextRates := none
  nextBaseRate := none
  nextValidatorStatuses := none

/-- Modelled from the spec: `PendingBlock::set_height` (not under
`src/`) sets height and epoch, with epoch index
`height / epoch_duration` (§4.5). -/
def PendingBlock.setHeight (pb : PendingBlock) (height epochDuration : Nat) :
    PendingBlock :=
  { pb with height := some height, epoch := some (height / epochDuration) }

/-- Modelled from the spec: the end height of an epoch is
`(epoch_index + 1) * epoch_duration - 1` (§4.5). -/
def epochEndHeight (epochIndex epochDuration : Nat) : Nat :=
  (epochIndex + 1) * epochDuration - 1

/-- Modelled from the spec: `PendingBlock::add_transaction` (not
under `src/`) stages a verified transaction (§4.4 step 5): add its
nullifiers to `spent_nullifiers`, insert its output note commitments
into the accumulator clone, apply its delegation changes (Rust `+=`
on `i64`, wrapping in release builds), and accumulate supply
updates (none modelled for a non-genesis transaction). -/
def PendingBlock.addTransaction (pb : PendingBlock) (tx : Tx) : PendingBlock :=
  { pb with
    spentNullifiers := pb.spentNullifiers ++ tx.spentNullifiers
    noteCommitmentTree := pb.noteCommitmentTree ++ tx.noteCommitments
    delegationChanges :=
      tx.delegationChanges.foldl (fun m p => bumpI64 m p.1 p.2) pb.delegationChanges }

/-- Modelled from the spec: `PendingBlock::slash_validator` (not
under `src/`, §4.3 step 4) marks the validator with the given
consensus key `Slashed` in the state machine and applies the
slashing penalty to its rate data (the rate adjustment itself is
out-of-scope arithmetic, recorded here as the `(consensus_key,
penalty)` slash event); an unknown consensus key is an error, which
the `begin_block` dispatcher turns fatal. -/
def PendingBlock.slashValidator (pb : PendingBlock) (ck penalty : Nat) :
    Option PendingBlock :=
  match pb.validatorInfos.find? (fun i => i.consensusKey = ck) with
  | none => none
  | some info =>
      some { pb with
        machineStates := insertAssoc pb.machineStates info.identityKey ValidatorState.Slashed
        slashedValidators := pb.slashedValidators ++ [info.identityKey]
        slashEvents := pb.slashEvents ++ [(ck, penalty)] }

/-- Modelled from the spec: `PendingBlock::add_validator_reward_note`
(not under `src/`, §4.6 step 8) appends one commission payout. -/
def PendingBlock.addValidatorRewardNote (pb : PendingBlock) (amount address : Nat) :
    PendingBlock :=
  { pb with rewardNotes := pb.rewardNotes ++ [(amount, address)] }

/-! ## `end_epoch` (worker.rs lines 337-613) -/

/-- The hard-coded `BASE_REWARD_RATE` constant (worker.rs line 408). -/
def BASE_REWARD_RATE : Nat := 30000

/-- The map-sum merge of the persisted delegation changes of the
previous epoch with the pending block's in-block deltas (worker.rs
lines 425-428).  The source uses a plain `+=` on `i64`, which wraps
silently in release builds: `wrapI64` makes that explicit. -/
def mergeDelegationChanges (persisted pending : List (Nat × Int)) : List (Nat × Int) :=
  pending.foldl (fun m p => bumpI64 m p.1 p.2) persisted

/-- The copy `{ current_rate with epoch_index := next_epoch }`: the body of
`hold_rate_constant` (worker.rs lines 433-440). -/
def holdRate (r : RateData) (nextEpochIndex : Nat) : RateData :=
  { r with epochIndex := nextEpochIndex }

/-- Read-only context of the per-validator loop of `end_epoch`. -/
structure EpochCtx : Type where
  ext : Ext
  reader : Reader
  /-- The pending block's validator state machine table. -/
  machine : List (Nat × ValidatorState)
  /-- The merged delegation changes. -/
  merged : List (Nat × Int)
  currentBase : BaseRate
  nextBase : BaseRate
  nextEpochIndex : Nat

/-- Accumulated state of the per-validator loop. -/
structure LoopState : Type where
  stakingSupply : Nat
  supplyUpdates : List (AssetId × Nat)
  nextRates : List RateData
  nextStatuses : List ValidatorStatus
  rewardNotes : List (Nat × Nat)
deriving DecidableEq, Repr

/-- The checked supply updates of worker.rs lines 479-491: on net
delegation (`0 < delta`) subtract the unbonded amount from the
staking supply and add the delegation amount to the delegation
token supply; otherwise the reverse.  `none` is an overflow
(`checked_*(..).unwrap()`, a fatal consensus fault). -/
def supplyDelta (stakingSupply dts unbonded amount : Nat) (delta : Int) :
    Option (Nat × Nat) :=
  if 0 < delta then
    match checkedSubU64 stakingSupply unbonded, checkedAddU64 dts amount with
    | some a, some b => some (a, b)
    | _, _ => none
  else
    match checkedAddU64 stakingSupply unbonded, checkedSubU64 dts amount with
    | some a, some b => some (a, b)
    | _, _ => none

/-- One iteration of the per-validator loop of `end_epoch`
(worker.rs lines 430-537).  `none` is a fatal consensus fault (a
`checked_*(..).unwrap()` overflow or a failed state-machine
lookup). -/
def processValidator (ctx : EpochCtx) (s : LoopState) (info : ValidatorInfo) :
    Option LoopState :=
  match info.status.state with
  | ValidatorState.Slashed =>
      -- slashed: rates were already updated with the penalty; hold constant
      some { s with
        nextRates := s.nextRates ++ [holdRate info.rateData ctx.nextEpochIndex]
        nextStatuses := s.nextStatuses ++ [info.status] }
  | ValidatorState.Inactive =>
      -- not part of the consensus set: rates are not updated
      some { s with
        nextRates := s.nextRates ++ [holdRate info.rateData ctx.nextEpochIndex]
        nextStatuses := s.nextStatuses ++ [info.status] }
  | _ =>
      let streams := ctx.reader.fundingStreams info.identityKey
      let nextRate := ctx.ext.rateNext info.rateData ctx.nextBase streams
      let delegationDelta := (lookupAssoc ctx.merged info.identityKey).getD 0
      let delegationAmount := i64AbsAsU64 delegationDelta
      let unbondedAmount := ctx.ext.unbondedAmount info.rateData delegationAmount
      let dts := (ctx.reader.assetLookup (AssetId.delegation info.identityKey)).getD 0
      match supplyDelta s.stakingSupply dts unbondedAmount delegationAmount delegationDelta,
          lookupAssoc ctx.machine info.identityKey with
      | some supplies, some nextState =>
          some { stakingSupply := supplies.1
                 supplyUpdates :=
                   insertAssoc s.supplyUpdates (AssetId.delegation info.identityKey)
                     supplies.2
                 nextRates := s.nextRates ++ [nextRate]
                 nextStatuses := s.nextStatuses ++
                   [{ identityKey := info.identityKey
                      votingPower := ctx.ext.votingPower nextRate supplies.2 ctx.nextBase
                      state := nextState }]
                 rewardNotes := s.rewardNotes ++
                   streams.map
                     (fun st =>
                       (ctx.ext.rewardAmount st supplies.2 ctx.nextBase ctx.currentBase,
                         st.address)) }
      | _, _ => none

/-- Stable insertion of `a` into `l`: `a` goes in front of the first
element `b` with `le a b`. -/
def insertStable {α : Type} (le : α → α → Bool) (a : α) : List α → List α
  | [] => [a]
  | b :: bs => if le a b then a :: b :: bs else b :: insertStable le a bs

/-- A stable sort placing `a` before `b` whenever `le a b`.  The
source ranks statuses with itertools' `sorted_by`, a stable sort by
a total comparator; a stable sort by a total preorder is unique, and
stable insertion sort is its executable embedding. -/
def stableSort {α : Type} (le : α → α → Bool) (l : List α) : List α :=
  l.foldr (insertStable le) []

/-- The comparator of worker.rs line 562:
`|a, b| b.voting_power.cmp(&a.voting_power)` — voting power
descending, and nothing else. -/
def powerDescLe (a b : ValidatorStatus) : Bool :=
  b.votingPower ≤ a.votingPower

/-- The `top_validators` ranking (worker.rs lines 560-565): identity keys of the
first `validator_limit` staged statuses, ranked by voting power
descending (ties kept in staged order by stability). -/
def topValidators (statuses : List ValidatorStatus) (validatorLimit : Nat) : List Nat :=
  (((stableSort powerDescLe statuses).take validatorLimit).map
    (fun v => v.identityKey))

/-- The per-status state transition of the rotation loop (worker.rs
lines 566-597). -/
def rotateStatus (top : List Nat) (currentEpochIndex unbondingEpochs : Nat)
    (v : ValidatorStatus) : ValidatorStatus :=
  let v1 :=
    if v.state = ValidatorState.Inactive ∨ v.state.isUnbonding then
      if v.identityKey ∈ top then { v with state := ValidatorState.Active } else v
    else if v.state = ValidatorState.Active then
      if v.identityKey ∈ top then v
      else { v with
        state := ValidatorState.Unbonding (currentEpochIndex + unbondingEpochs) }
    else v
  match v1.state with
  | ValidatorState.Unbonding u =>
      if u ≤ currentEpochIndex then { v1 with state := ValidatorState.Inactive } else v1
  | _ => v1

/-- The `end_epoch` computation (worker.rs lines 337-613).  Here `none` is a fatal
consensus fault (`expect`/`unwrap`). -/
def endEpoch (ext : Ext) (reader : Reader) (params : ChainParams)
    (pb : PendingBlock) : Option PendingBlock :=
  match pb.height, pb.epoch with
  | some height, some prevEpoch =>
      let currentEpoch := prevEpoch + 1
      let nextEpoch := currentEpoch + 1
      -- reveal quarantined notes and nullifiers of well-behaved validators
      let wellBehaved :=
        ((pb.machineStates.filter (fun p => ¬ p.2 = ValidatorState.Slashed)).map
          (fun p => p.1))
      let pb1 : PendingBlock :=
        { pb with
          noteCommitmentTree :=
            pb.noteCommitmentTree ++
              ((reader.quarantinedNotes (some height) wellBehaved).map (fun p => p.1))
          unbondingNullifiers :=
            pb.unbondingNullifiers ++
              reader.quarantinedNullifiers (some height) wellBehaved }
      let currentBaseRate := reader.baseRateData currentEpoch
      match reader.assetLookup AssetId.staking with
      | none => none
      | some stakingTokenSupply =>
          let nextBaseRate := ext.baseNext currentBaseRate BASE_REWARD_RATE
          let merged :=
            mergeDelegationChanges reader.delegationChanges pb1.delegationChanges
          let ctx : EpochCtx :=
            { ext := ext, reader := reader, machine := pb1.machineStates,
              merged := merged, currentBase := currentBaseRate,
              nextBase := nextBaseRate, nextEpochIndex := nextEpoch }
          let s0 : LoopState :=
            { stakingSupply := stakingTokenSupply, supplyUpdates := pb1.supplyUpdates,
              nextRates := [], nextStatuses := [], rewardNotes := [] }
          match pb1.validatorInfos.foldlM (processValidator ctx) s0 with
          | none => none
          | some s =>
              let top := topValidators s.nextStatuses params.validatorLimit
              let rotated :=
                s.nextStatuses.map (rotateStatus top currentEpoch params.unbondingEpochs)
              some { pb1 with
                nextRates := some s.nextRates
                nextBaseRate := some nextBaseRate
                nextValidatorStatuses := some rotated
                supplyUpdates := insertAssoc s.supplyUpdates AssetId.staking s.stakingSupply
                rewardNotes := pb1.rewardNotes ++ s.rewardNotes }
  | _, _ => none

/-! ## Worker state and handlers -/

/-- The worker's mutable state: the optional pending block and the
live note-commitment accumulator. -/
structure Worker : Type where
  pendingBlock : Option PendingBlock
  noteCommitmentTree : List Nat
deriving DecidableEq, Repr

/-- An ABCI `DeliverTx` response: code `0` is success, nonzero is a
rejected transaction with a log message. -/
structure DeliverTxResponse : Type where
  code : Nat
  log : String
deriving DecidableEq, Repr

/-- The `deliver_tx` handler (worker.rs lines 225-258) together with the
dispatch loop's response mapping (lines 63-72): `Ok` becomes code
`0`, `Err` becomes code `1` with the error as log.  The argument is
the result of `Transaction::decode` (`none` for undecodable bytes);
the stateless and stateful verifier verdicts ride on the decoded
transaction.  Decoding and verification happen before the pending
block is touched; the `unwrap` of an absent pending block (a fatal
fault, `none`) is only reached by a transaction that passed them. -/
def Worker.deliverTx (w : Worker) (decoded : Option Tx) :
    Option (Worker × DeliverTxResponse) :=
  match decoded with
  | none => some (w, { code := 1, log := "decode" })
  | some tx =>
      if ¬ tx.statelessOk then some (w, { code := 1, log := "stateless" })
      else if ¬ tx.statefulOk then some (w, { code := 1, log := "stateful" })
      else
        match w.pendingBlock with
        | none => none
        | some pb =>
            if tx.spentNullifiers.any (fun n => n ∈ pb.spentNullifiers) then
              some (w,
                { code := 1,
                  log := "nullifier is already spent in the pending block" })
            else
              some ({ w with pendingBlock := some (pb.addTransaction tx) },
                { code := 0, log := "" })

/-- The byzantine-evidence loop of `begin_block` (worker.rs lines
206-213): for each entry, the result of
`PublicKey::from_raw_ed25519` on its address (`none` for an invalid
key) is `unwrap`ped — a fatal fault — and the validator with that
consensus key is slashed with the penalty read from chain
parameters before the loop. -/
def slashFold (penalty : Nat) (ev : List (Option Nat)) (pb : PendingBlock) :
    Option PendingBlock :=
  ev.foldlM
    (fun (pb : PendingBlock) e =>
      match e with
      | none => none
      | some ck => pb.slashValidator ck penalty)
    pb

/-- The `begin_block` handler (worker.rs lines 179-216).  It asserts that no
pending block exists; create a fresh one from the live accumulator
and the store's validator info; read `slashing_penalty` once from
chain parameters; then, for each byzantine-evidence entry (given
here as the result of `PublicKey::from_raw_ed25519` on its address,
`none` for an invalid key), `unwrap` the key — a fatal fault on an
invalid one — and slash the validator with that penalty.  `none` is
a fatal fault. -/
def Worker.beginBlock (w : Worker) (reader : Reader) (params : ChainParams)
    (byzantineValidators : List (Option Nat)) : Option Worker :=
  if w.pendingBlock.isSome then none
  else
    (slashFold params.slashingPenalty byzantineValidators
      (PendingBlock.new w.noteCommitmentTree reader.validatorInfo)).map
      (fun pb => { w with pendingBlock := some pb })

/-- The `end_block` handler (worker.rs lines 260-334): require the pending block
(fatal if absent), set height and epoch, stage quarantine reverts
for validators slashed this block, and run `end_epoch` when the
height is the epoch's end height. -/
def Worker.endBlock (w : Worker) (ext : Ext) (reader : Reader) (params : ChainParams)
    (height : Nat) : Option Worker :=
  match w.pendingBlock with
  | none => none
  | some pb =>
      let pb1 := pb.setHeight height params.epochDuration
      let pb2 : PendingBlock :=
        { pb1 with
          revertingNotes :=
            pb1.revertingNotes ++
              ((reader.quarantinedNotes none pb1.slashedValidators).map (fun p => p.1))
          revertingNullifiers :=
            pb1.revertingNullifiers ++
              reader.quarantinedNullifiers none pb1.slashedValidators }
      match pb2.epoch with
      | none => none
      | some epoch =>
          if epochEndHeight epoch params.epochDuration = height then
            match endEpoch ext reader params pb2 with
            | none => none
            | some pb3 => some { w with pendingBlock := some pb3 }
          else
            some { w with pendingBlock := some pb2 }

/-- The `commit` handler (worker.rs lines 615-632): take the pending block
(fatal if absent), adopt its accumulator as the live one and hand
the block to the state writer — an external collaborator, here a
function computing the app hash. -/
def Worker.commit (w : Worker) (commitBlock : PendingBlock → Nat) :
    Option (Worker × Nat) :=
  match w.pendingBlock with
  | none => none
  | some pb =>
      some ({ pendingBlock := none, noteCommitmentTree := pb.noteCommitmentTree },
        commitBlock pb)

/-! ## Basic lemmas -/

theorem checkedAddU64_eq_some {a b c : Nat} :
    checkedAddU64 a b = some c ↔ a + b < 2 ^ 64 ∧ c = a + b := by
  unfold checkedAddU64
  split
  · simp only [Option.some.injEq]
    constructor
    · intro h
      exact ⟨by assumption, h.symm⟩
    · intro h
      exact h.2.symm
  · simp only [reduceCtorEq, false_iff, not_and]
    intro h
    omega

theorem checkedSubU64_eq_some {a b c : Nat} :
    checkedSubU64 a b = some c ↔ b ≤ a ∧ c = a - b := by
  unfold checkedSubU64
  split
  · simp only [Option.some.injEq]
    constructor
    · intro h
      exact ⟨by assumption, h.symm⟩
    · intro h
      exact h.2.symm
  · simp only [reduceCtorEq, false_iff, not_and]
    intro h
    omega

/-- On the whole `i64` range the release-mode `x.abs() as u64` is
numerically `|x|` (including at `i64::MIN`, where the wrap of `abs`
and the bit-reinterpreting cast cancel). -/
theorem i64AbsAsU64_eq_natAbs (x : Int) (hlo : -(2 ^ 63) ≤ x) (hhi : x < 2 ^ 63) :
    i64AbsAsU64 x = x.natAbs := by
  unfold i64AbsAsU64 wrapI64
  omega

theorem lookupAssoc_insertAssoc_self {α β : Type} [DecidableEq α]
    (m : List (α × β)) (k : α) (v : β) :
    lookupAssoc (insertAssoc m k v) k = some v := by
  induction m with
  | nil => simp [insertAssoc, lookupAssoc]
  | cons p ps ih =>
      by_cases h : p.1 = k
      · simp [insertAssoc, lookupAssoc, h]
      · simp [insertAssoc, lookupAssoc, h, ih]

/-! ## C1: double-spend rejection and error isolation in `deliver_tx` -/

/-- C1.  For every pending block `P` and transaction `T` whose
nullifier set intersects `P.spent_nullifiers`, `deliver_tx(T)`
returns a non-zero response code; and on any `deliver_tx` error
(decode, stateless, stateful, or in-block double-spend) the worker's
pending block is left completely unchanged. -/
theorem deliver_tx_double_spend_rejected (w : Worker) (pb : PendingBlock) (tx : Tx)
    (n : Nat) (hpb : w.pendingBlock = some pb) (htx : n ∈ tx.spentNullifiers)
    (hblk : n ∈ pb.spentNullifiers) :
    (∃ resp : DeliverTxResponse,
      w.deliverTx (some tx) = some (w, resp) ∧ resp.code ≠ 0) ∧
    (∀ (decoded : Option Tx) (w2 : Worker) (resp : DeliverTxResponse),
      w.deliverTx decoded = some (w2, resp) → resp.code ≠ 0 → w2 = w) := by
  constructor
  · have hconflict :
        (tx.spentNullifiers.any fun m => decide (m ∈ pb.spentNullifiers)) = true := by
      rw [List.any_eq_true]
      exact ⟨n, htx, by simpa using hblk⟩
    by_cases h1 : tx.statelessOk
    · by_cases h2 : tx.statefulOk
      · exact ⟨⟨1, "nullifier is already spent in the pending block"⟩,
          by simp [Worker.deliverTx, h1, h2, hpb, hconflict], by decide⟩
      · exact ⟨⟨1, "stateful"⟩, by simp [Worker.deliverTx, h1, h2], by decide⟩
    · exact ⟨⟨1, "stateless"⟩, by simp [Worker.deliverTx, h1], by decide⟩
  · intro decoded w2 resp hrun hcode
    unfold Worker.deliverTx at hrun
    cases decoded with
    | none =>
        simp only [Option.some.injEq, Prod.mk.injEq] at hrun
        exact hrun.1.symm
    | some t =>
        dsimp only at hrun
        split at hrun
        · simp only [Option.some.injEq, Prod.mk.injEq] at hrun
          exact hrun.1.symm
        · split at hrun
          · simp only [Option.some.injEq, Prod.mk.injEq] at hrun
            exact hrun.1.symm
          · rw [hpb] at hrun
            dsimp only at hrun
            split at hrun
            · simp only [Option.some.injEq, Prod.mk.injEq] at hrun
              exact hrun.1.symm
            · simp only [Option.some.injEq, Prod.mk.injEq] at hrun
              rw [← hrun.2] at hcode
              simp at hcode

/-- Concrete pending block with nullifier `7` already spent, for
witnesses. -/
def pbSpent7 : PendingBlock :=
  { PendingBlock.new [] [] with spentNullifiers := [7] }

/-- Concrete verified transaction spending nullifier `7`, for
witnesses. -/
def txSpend7 : Tx :=
  { statelessOk := true, statefulOk := true, spentNullifiers := [7],
    noteCommitments := [], delegationChanges := [] }

/-- Witness for C1 at a concrete worker and transaction. -/
theorem deliver_tx_double_spend_rejected_witness :
    (∃ resp : DeliverTxResponse,
      (Worker.mk (some pbSpent7) []).deliverTx (some txSpend7) =
        some (Worker.mk (some pbSpent7) [], resp) ∧ resp.code ≠ 0) ∧
    (∀ (decoded : Option Tx) (w2 : Worker) (resp : DeliverTxResponse),
      (Worker.mk (some pbSpent7) []).deliverTx decoded = some (w2, resp) →
        resp.code ≠ 0 → w2 = Worker.mk (some pbSpent7) []) :=
  deliver_tx_double_spend_rejected (Worker.mk (some pbSpent7) []) pbSpent7 txSpend7 7
    rfl (by decide) (by decide)

/-! ## The per-validator loop: supply accounting (C2, C9) -/

theorem supplyDelta_eq_some {ss dts ub amt : Nat} {delta : Int} {pa pb : Nat} :
    supplyDelta ss dts ub amt delta = some (pa, pb) ↔
      ((0 < delta ∧ checkedSubU64 ss ub = some pa ∧ checkedAddU64 dts amt = some pb) ∨
       (¬ 0 < delta ∧ checkedAddU64 ss ub = some pa ∧ checkedSubU64 dts amt = some pb)) := by
  unfold supplyDelta
  by_cases hd : 0 < delta
  · rw [if_pos hd]
    cases ha : checkedSubU64 ss ub with
    | none => simp [hd]
    | some a =>
        cases hb : checkedAddU64 dts amt with
        | none => simp [hd]
        | some b => simp [hd, And.comm]
  · rw [if_neg hd]
    cases ha : checkedAddU64 ss ub with
    | none => simp [hd]
    | some a =>
        cases hb : checkedSubU64 dts amt with
        | none => simp [hd]
        | some b => simp [hd, And.comm]

/-- Characterization of a successful non-held (neither Slashed nor
Inactive) iteration of the per-validator loop. -/
theorem processValidator_nonheld_some (ctx : EpochCtx) (s s2 : LoopState)
    (info : ValidatorInfo)
    (hS : info.status.state ≠ ValidatorState.Slashed)
    (hI : info.status.state ≠ ValidatorState.Inactive)
    (hrun : processValidator ctx s info = some s2) :
    ∃ a b nst,
      lookupAssoc ctx.machine info.identityKey = some nst ∧
      ((0 < (lookupAssoc ctx.merged info.identityKey).getD 0 ∧
        checkedSubU64 s.stakingSupply
          (ctx.ext.unbondedAmount info.rateData
            (i64AbsAsU64 ((lookupAssoc ctx.merged info.identityKey).getD 0))) = some a ∧
        checkedAddU64 ((ctx.reader.assetLookup (AssetId.delegation info.identityKey)).getD 0)
          (i64AbsAsU64 ((lookupAssoc ctx.merged info.identityKey).getD 0)) = some b) ∨
       (¬ 0 < (lookupAssoc ctx.merged info.identityKey).getD 0 ∧
        checkedAddU64 s.stakingSupply
          (ctx.ext.unbondedAmount info.rateData
            (i64AbsAsU64 ((lookupAssoc ctx.merged info.identityKey).getD 0))) = some a ∧
        checkedSubU64 ((ctx.reader.assetLookup (AssetId.delegation info.identityKey)).getD 0)
          (i64AbsAsU64 ((lookupAssoc ctx.merged info.identityKey).getD 0)) = some b)) ∧
      s2 = { stakingSupply := a
             supplyUpdates := insertAssoc s.supplyUpdates
               (AssetId.delegation info.identityKey) b
             nextRates := s.nextRates ++
               [ctx.ext.rateNext info.rateData ctx.nextBase
                 (ctx.reader.fundingStreams info.identityKey)]
             nextStatuses := s.nextStatuses ++
               [{ identityKey := info.identityKey
                  votingPower := ctx.ext.votingPower
                    (ctx.ext.rateNext info.rateData ctx.nextBase
                      (ctx.reader.fundingStreams info.identityKey)) b ctx.nextBase
                  state := nst }]
             rewardNotes := s.rewardNotes ++
               (ctx.reader.fundingStreams info.identityKey).map
                 (fun st =>
                   (ctx.ext.rewardAmount st b ctx.nextBase ctx.currentBase,
                     st.address)) } := by
  have hrun2 := hrun
  have hgo :
      ∀ (goal : Prop),
        (processValidator ctx s info =
            (match supplyDelta s.stakingSupply
                ((ctx.reader.assetLookup (AssetId.delegation info.identityKey)).getD 0)
                (ctx.ext.unbondedAmount info.rateData
                  (i64AbsAsU64 ((lookupAssoc ctx.merged info.identityKey).getD 0)))
                (i64AbsAsU64 ((lookupAssoc ctx.merged info.identityKey).getD 0))
                ((lookupAssoc ctx.merged info.identityKey).getD 0),
              lookupAssoc ctx.machine info.identityKey with
            | some supplies, some nextState =>
                some { stakingSupply := supplies.1
                       supplyUpdates := insertAssoc s.supplyUpdates
                         (AssetId.delegation info.identityKey) supplies.2
                       nextRates := s.nextRates ++
                         [ctx.ext.rateNext info.rateData ctx.nextBase
                           (ctx.reader.fundingStreams info.identityKey)]
                       nextStatuses := s.nextStatuses ++
                         [{ identityKey := info.identityKey
                            votingPower := ctx.ext.votingPower
                              (ctx.ext.rateNext info.rateData ctx.nextBase
                                (ctx.reader.fundingStreams info.identityKey))
                              supplies.2 ctx.nextBase
                            state := nextState }]
                       rewardNotes := s.rewardNotes ++
                         (ctx.reader.fundingStreams info.identityKey).map
                           (fun st =>
                             (ctx.ext.rewardAmount st supplies.2 ctx.nextBase
                               ctx.currentBase, st.address)) }
            | _, _ => none) → goal) → goal := by
    intro goal hk
    cases hstate : info.status.state with
    | Inactive => exact absurd hstate hI
    | Slashed => exact absurd hstate hS
    | Active =>
        apply hk
        simp only [processValidator, hstate]
    | Unbonding u =>
        apply hk
        simp only [processValidator, hstate]
  apply hgo
  intro hred
  rw [hred] at hrun2
  cases hsup : supplyDelta s.stakingSupply
      ((ctx.reader.assetLookup (AssetId.delegation info.identityKey)).getD 0)
      (ctx.ext.unbondedAmount info.rateData
        (i64AbsAsU64 ((lookupAssoc ctx.merged info.identityKey).getD 0)))
      (i64AbsAsU64 ((lookupAssoc ctx.merged info.identityKey).getD 0))
      ((lookupAssoc ctx.merged info.identityKey).getD 0) with
  | none => rw [hsup] at hrun2; exact absurd hrun2 (by simp)
  | some supplies =>
      obtain ⟨pa, pb⟩ := supplies
      cases hnst : lookupAssoc ctx.machine info.identityKey with
      | none => rw [hsup, hnst] at hrun2; exact absurd hrun2 (by simp)
      | some nst =>
          rw [hsup, hnst] at hrun2
          simp only [Option.some.injEq] at hrun2
          rw [supplyDelta_eq_some] at hsup
          exact ⟨pa, pb, nst, rfl, hsup, hrun2.symm⟩

/-- C2.  In `end_epoch`'s per-validator loop, for every validator
not in state Slashed or Inactive, with merged delegation delta `Δ`:
if `Δ > 0` the staking token supply decreases by
`unbonded_amount(|Δ|)` and the delegation token supply increases by
`|Δ|`; if `Δ < 0` the staking token supply increases by
`unbonded_amount(|Δ|)` and the delegation token supply decreases by
`|Δ|`; the resulting delegation token supply is written into
`supply_updates`. -/
theorem end_epoch_supply_conservation_per_validator (ctx : EpochCtx) (s s2 : LoopState)
    (info : ValidatorInfo) (delta : Int)
    (hS : info.status.state ≠ ValidatorState.Slashed)
    (hI : info.status.state ≠ ValidatorState.Inactive)
    (hdelta : (lookupAssoc ctx.merged info.identityKey).getD 0 = delta)
    (hlo : -(2 ^ 63) ≤ delta) (hhi : delta < 2 ^ 63)
    (hrun : processValidator ctx s info = some s2) :
    ∃ newSupply,
      lookupAssoc s2.supplyUpdates (AssetId.delegation info.identityKey) =
        some newSupply ∧
      (0 < delta →
        s2.stakingSupply + ctx.ext.unbondedAmount info.rateData delta.natAbs =
          s.stakingSupply ∧
        newSupply =
          (ctx.reader.assetLookup (AssetId.delegation info.identityKey)).getD 0 +
            delta.natAbs) ∧
      (delta < 0 →
        s2.stakingSupply =
          s.stakingSupply + ctx.ext.unbondedAmount info.rateData delta.natAbs ∧
        newSupply + delta.natAbs =
          (ctx.reader.assetLookup (AssetId.delegation info.identityKey)).getD 0) := by
  obtain ⟨a, b, nst, hnst, hbranch, hs2⟩ :=
    processValidator_nonheld_some ctx s s2 info hS hI hrun
  rw [hdelta, i64AbsAsU64_eq_natAbs delta hlo hhi] at hbranch
  subst hs2
  refine ⟨b, lookupAssoc_insertAssoc_self _ _ _, ?_, ?_⟩
  · intro hpos
    rcases hbranch with ⟨-, hsub, hadd⟩ | ⟨hneg, -, -⟩
    · rw [checkedSubU64_eq_some] at hsub
      rw [checkedAddU64_eq_some] at hadd
      exact ⟨by dsimp only; omega, by omega⟩
    · exact absurd hpos hneg
  · intro hneg
    rcases hbranch with ⟨hpos, -, -⟩ | ⟨-, hadd, hsub⟩
    · omega
    · rw [checkedAddU64_eq_some] at hadd
      rw [checkedSubU64_eq_some] at hsub
      exact ⟨by dsimp only; omega, by omega⟩

/-- Trivial concrete rate arithmetic for witnesses: the unbonded
amount and voting power are the amounts themselves. -/
def extW : Ext :=
  { rateNext := fun r _ _ => r, unbondedAmount := fun _ n => n,
    votingPower := fun _ d _ => d, rewardAmount := fun _ d _ _ => d,
    baseNext := fun b _ => b }

/-- Concrete rate data for witnesses. -/
def rateW : RateData :=
  { identityKey := 1, epochIndex := 0, validatorRewardRate := 0,
    validatorExchangeRate := 0 }

/-- Concrete base rate for witnesses. -/
def baseW : BaseRate := { epochIndex := 0, baseRewardRate := 0, baseExchangeRate := 0 }

/-- Concrete reader for witnesses: staking supply 1000, every
delegation token supply 100. -/
def readerW : Reader :=
  { validatorInfo := [], fundingStreams := fun _ => [],
    assetLookup := fun a =>
      match a with
      | AssetId.staking => some 1000
      | AssetId.delegation _ => some 100,
    baseRateData := fun e =>
      { epochIndex := e, baseRewardRate := 0, baseExchangeRate := 0 },
    delegationChanges := [], quarantinedNotes := fun _ _ => [],
    quarantinedNullifiers := fun _ _ => [] }

/-- Concrete loop context for the C2 witness: validator 1 is Active
with merged delta `+5`. -/
def ctxW : EpochCtx :=
  { ext := extW, reader := readerW, machine := [(1, ValidatorState.Active)],
    merged := [(1, 5)], currentBase := baseW, nextBase := baseW, nextEpochIndex := 2 }

/-- Concrete validator info for witnesses. -/
def infoW : ValidatorInfo :=
  { identityKey := 1, consensusKey := 1, rateData := rateW,
    status :=
      { identityKey := 1, votingPower := 100, state := ValidatorState.Active } }

/-- Concrete loop state for witnesses: staking supply 1000. -/
def sW : LoopState :=
  { stakingSupply := 1000, supplyUpdates := [], nextRates := [], nextStatuses := [],
    rewardNotes := [] }

/-- The loop state after processing `infoW` in `ctxW` from `sW`. -/
def s2W : LoopState :=
  { stakingSupply := 995, supplyUpdates := [(AssetId.delegation 1, 105)],
    nextRates := [rateW],
    nextStatuses :=
      [{ identityKey := 1, votingPower := 105, state := ValidatorState.Active }],
    rewardNotes := [] }

/-- Witness for C2 at a concrete loop iteration with delta `+5`. -/
theorem end_epoch_supply_conservation_per_validator_witness :
    s2W.stakingSupply + extW.unbondedAmount rateW (Int.natAbs 5) = sW.stakingSupply ∧
    lookupAssoc s2W.supplyUpdates (AssetId.delegation infoW.identityKey) = some 105 := by
  obtain ⟨ns, hlook, hpos, hneg⟩ :=
    end_epoch_supply_conservation_per_validator ctxW sW s2W infoW 5 (by decide)
      (by decide) (by decide) (by decide) (by decide) (by decide)
  refine ⟨(hpos (by decide)).1, ?_⟩
  have h2 := (hpos (by decide)).2
  rw [hlook, h2]
  rfl

/-- C9.  When a non-Slashed, non-Inactive validator's merged
delegation delta is exactly zero, the loop executes the
net-undelegation branch with `delegation_amount = 0`: it adds
`unbonded_amount(0)` to the staking supply and subtracts `0` from
the delegation supply, still writes the (unchanged) delegation token
supply into `supply_updates`, still computes its voting power, and
still emits one commission reward note per funding stream — the
zero-delta case is not skipped. -/
theorem end_epoch_zero_delta_not_skipped (ctx : EpochCtx) (s s2 : LoopState)
    (info : ValidatorInfo)
    (hS : info.status.state ≠ ValidatorState.Slashed)
    (hI : info.status.state ≠ ValidatorState.Inactive)
    (hdelta : (lookupAssoc ctx.merged info.identityKey).getD 0 = 0)
    (hrun : processValidator ctx s info = some s2) :
    s2.stakingSupply = s.stakingSupply + ctx.ext.unbondedAmount info.rateData 0 ∧
    lookupAssoc s2.supplyUpdates (AssetId.delegation info.identityKey) =
      some ((ctx.reader.assetLookup (AssetId.delegation info.identityKey)).getD 0) ∧
    (∃ nst, lookupAssoc ctx.machine info.identityKey = some nst ∧
      s2.nextStatuses = s.nextStatuses ++
        [{ identityKey := info.identityKey
           votingPower := ctx.ext.votingPower
             (ctx.ext.rateNext info.rateData ctx.nextBase
               (ctx.reader.fundingStreams info.identityKey))
             ((ctx.reader.assetLookup (AssetId.delegation info.identityKey)).getD 0)
             ctx.nextBase
           state := nst }]) ∧
    s2.rewardNotes = s.rewardNotes ++
      (ctx.reader.fundingStreams info.identityKey).map
        (fun st =>
          (ctx.ext.rewardAmount st
            ((ctx.reader.assetLookup (AssetId.delegation info.identityKey)).getD 0)
            ctx.nextBase ctx.currentBase, st.address)) := by
  obtain ⟨a, b, nst, hnst, hbranch, hs2⟩ :=
    processValidator_nonheld_some ctx s s2 info hS hI hrun
  rw [hdelta] at hbranch
  have habs : i64AbsAsU64 0 = 0 := by decide
  rw [habs] at hbranch
  rcases hbranch with ⟨hpos, -, -⟩ | ⟨-, hadd, hsub⟩
  · exact absurd hpos (by decide)
  · rw [checkedAddU64_eq_some] at hadd
    rw [checkedSubU64_eq_some] at hsub
    have hb : b = (ctx.reader.assetLookup (AssetId.delegation info.identityKey)).getD 0 := by
      omega
    have ha : a = s.stakingSupply + ctx.ext.unbondedAmount info.rateData 0 := by
      omega
    subst hs2
    subst hb
    refine ⟨by dsimp only; omega, ?_, ⟨nst, hnst, ?_⟩, ?_⟩
    · exact lookupAssoc_insertAssoc_self _ _ _
    · rfl
    · rfl

/-- Concrete loop context for the C9 witness: validator 1 is Active
with no merged delegation delta. -/
def ctxW0 : EpochCtx :=
  { ext := extW, reader := readerW, machine := [(1, ValidatorState.Active)],
    merged := [], currentBase := baseW, nextBase := baseW, nextEpochIndex := 2 }

/-- The loop state after processing `infoW` in `ctxW0` from `sW`. -/
def s2W0 : LoopState :=
  { stakingSupply := 1000, supplyUpdates := [(AssetId.delegation 1, 100)],
    nextRates := [rateW],
    nextStatuses :=
      [{ identityKey := 1, votingPower := 100, state := ValidatorState.Active }],
    rewardNotes := [] }

/-- Witness for C9 at a concrete loop iteration with delta `0`. -/
theorem end_epoch_zero_delta_not_skipped_witness :
    s2W0.stakingSupply = sW.stakingSupply + extW.unbondedAmount rateW 0 ∧
    lookupAssoc s2W0.supplyUpdates (AssetId.delegation infoW.identityKey) =
      some ((readerW.assetLookup (AssetId.delegation infoW.identityKey)).getD 0) := by
  obtain ⟨h1, h2, -, -⟩ :=
    end_epoch_zero_delta_not_skipped ctxW0 sW s2W0 infoW (by decide) (by decide)
      (by decide) (by decide)
  exact ⟨h1, h2⟩

/-! ## C3: the delegation-change merge is not overflow-checked -/

/-- C3 (refuting the claim that every integer operation in
`end_epoch`'s supply accounting is overflow-checked).  The map-sum
merge of persisted delegation changes with the pending block's
in-block deltas (worker.rs line 427) is a plain `+=` on `i64`: with
a persisted delta of `i64::MAX` and an in-block delta of `1` for the
same validator it silently wraps to the negative value `i64::MIN`
in a release build instead of failing as a consensus fault. -/
theorem merge_delegation_changes_wraps_silently :
    lookupAssoc (mergeDelegationChanges [(1, 2 ^ 63 - 1)] [(1, 1)]) 1 =
      some (-(2 ^ 63)) ∧ (-(2 ^ 63) : Int) < 0 := by decide

/-! ## C5: ranking of staged statuses -/

theorem insertStable_perm {α : Type} (le : α → α → Bool) (a : α) (l : List α) :
    (insertStable le a l).Perm (a :: l) := by
  induction l with
  | nil => exact List.Perm.refl _
  | cons b bs ih =>
      unfold insertStable
      split
      · exact List.Perm.refl _
      · exact List.Perm.trans (List.Perm.cons b ih) (List.Perm.swap a b bs)

theorem stableSort_perm {α : Type} (le : α → α → Bool) (l : List α) :
    (stableSort le l).Perm l := by
  induction l with
  | nil => exact List.Perm.refl _
  | cons x xs ih =>
      exact List.Perm.trans (insertStable_perm le x (stableSort le xs))
        (List.Perm.cons x ih)

theorem mem_insertStable {α : Type} {le : α → α → Bool} {a x : α} {l : List α} :
    x ∈ insertStable le a l ↔ x = a ∨ x ∈ l := by
  rw [(insertStable_perm le a l).mem_iff]
  simp

theorem insertStable_pairwise (a : ValidatorStatus) (l : List ValidatorStatus)
    (h : l.Pairwise (fun x y => y.votingPower ≤ x.votingPower)) :
    (insertStable powerDescLe a l).Pairwise
      (fun x y => y.votingPower ≤ x.votingPower) := by
  induction l with
  | nil => simp [insertStable]
  | cons b bs ih =>
      rw [List.pairwise_cons] at h
      obtain ⟨h1, h2⟩ := h
      unfold insertStable
      split
      case isTrue hle =>
        have hba : b.votingPower ≤ a.votingPower := by
          simpa [powerDescLe] using hle
        refine List.Pairwise.cons ?_ (List.Pairwise.cons h1 h2)
        intro x hx
        rcases List.mem_cons.mp hx with hx | hx
        · rw [hx]; exact hba
        · exact le_trans (h1 x hx) hba
      case isFalse hle =>
        have hab : a.votingPower ≤ b.votingPower := by
          have h2 := hle
          simp only [powerDescLe, decide_eq_true_eq] at h2
          omega
        refine List.Pairwise.cons ?_ (ih h2)
        intro x hx
        rcases mem_insertStable.mp hx with hx | hx
        · rw [hx]; exact hab
        · exact h1 x hx

theorem stableSort_sorted (l : List ValidatorStatus) :
    (stableSort powerDescLe l).Pairwise (fun x y => y.votingPower ≤ x.votingPower) := by
  induction l with
  | nil => simp [stableSort]
  | cons x xs ih => exact insertStable_pairwise x (stableSort powerDescLe xs) ih

theorem filter_insertStable_pos (a : ValidatorStatus) (l : List ValidatorStatus)
    (p : Nat) (ha : a.votingPower = p) :
    (insertStable powerDescLe a l).filter (fun v => v.votingPower = p) =
      a :: l.filter (fun v => v.votingPower = p) := by
  induction l with
  | nil => simp [insertStable, ha]
  | cons b bs ih =>
      unfold insertStable
      split
      case isTrue hle => simp [ha]
      case isFalse hle =>
        have hb : ¬ b.votingPower = p := by
          have h2 := hle
          simp only [powerDescLe, decide_eq_true_eq] at h2
          omega
        rw [List.filter_cons, List.filter_cons, if_neg (by simpa using hb),
          if_neg (by simpa using hb), ih]

theorem filter_insertStable_neg (a : ValidatorStatus) (l : List ValidatorStatus)
    (p : Nat) (ha : ¬ a.votingPower = p) :
    (insertStable powerDescLe a l).filter (fun v => v.votingPower = p) =
      l.filter (fun v => v.votingPower = p) := by
  induction l with
  | nil => simp [insertStable, ha]
  | cons b bs ih =>
      unfold insertStable
      split
      case isTrue hle => simp [ha]
      case isFalse hle =>
        simp only [List.filter_cons]
        rw [ih]

theorem stableSort_filter_stable (l : List ValidatorStatus) (p : Nat) :
    (stableSort powerDescLe l).filter (fun v => v.votingPower = p) =
      l.filter (fun v => v.votingPower = p) := by
  induction l with
  | nil => rfl
  | cons x xs ih =>
      by_cases hx : x.votingPower = p
      · rw [show stableSort powerDescLe (x :: xs) =
            insertStable powerDescLe x (stableSort powerDescLe xs) from rfl,
          filter_insertStable_pos x _ p hx, ih, List.filter_cons, if_pos (by simp [hx])]
      · rw [show stableSort powerDescLe (x :: xs) =
            insertStable powerDescLe x (stableSort powerDescLe xs) from rfl,
          filter_insertStable_neg x _ p hx, ih, List.filter_cons, if_neg (by simp [hx])]

/-- C5 (amended).  The staged statuses are ranked by voting power
descending, with ties kept in the order in which the statuses were
staged (a stable sort) — not broken by identity key — and
`top_validators` is the identity keys of the first `validator_limit`
statuses of that ranking: the ranking is a permutation of the staged
statuses, is sorted by voting power descending, preserves the staged
order within every voting-power class, and the top set has at most
`validator_limit` members. -/
theorem top_validators_ranking (statuses : List ValidatorStatus) (limit : Nat) :
    (stableSort powerDescLe statuses).Perm statuses ∧
    (stableSort powerDescLe statuses).Pairwise
      (fun x y => y.votingPower ≤ x.votingPower) ∧
    (∀ p, (stableSort powerDescLe statuses).filter (fun v => v.votingPower = p) =
      statuses.filter (fun v => v.votingPower = p)) ∧
    topValidators statuses limit =
      ((stableSort powerDescLe statuses).take limit).map (fun v => v.identityKey) ∧
    (topValidators statuses limit).length ≤ limit := by
  refine ⟨stableSort_perm _ _, stableSort_sorted _, fun p => stableSort_filter_stable _ p,
    rfl, ?_⟩
  unfold topValidators
  rw [List.length_map, List.length_take]
  exact min_le_left _ _

/-- Modelled from the spec: the ranking of §4.6 step 7, "by
`voting_power` descending, identity ascending as tiebreaker", with
the top set the first `validator_limit` — for comparison with the
source's `topValidators`. -/
def specTiebreakLe (a b : ValidatorStatus) : Bool :=
  decide (b.votingPower < a.votingPower ∨
    (b.votingPower = a.votingPower ∧ a.identityKey ≤ b.identityKey))

/-- Modelled from the spec: the spec's top set. -/
def specRankedTop (statuses : List ValidatorStatus) (validatorLimit : Nat) : List Nat :=
  ((stableSort specTiebreakLe statuses).take validatorLimit).map
    (fun v => v.identityKey)

/-- Counterexample for C5: two staged statuses with equal voting
power `10`, staged with identity key `2` first.  The source's
ranking keeps the staged order and picks validator `2`; the spec's
identity-ascending tiebreaker picks validator `1`. -/
theorem top_validators_tiebreak_counterexample :
    topValidators
        [{ identityKey := 2, votingPower := 10, state := ValidatorState.Inactive },
         { identityKey := 1, votingPower := 10, state := ValidatorState.Inactive }] 1 =
      [2] ∧
    specRankedTop
        [{ identityKey := 2, votingPower := 10, state := ValidatorState.Inactive },
         { identityKey := 1, votingPower := 10, state := ValidatorState.Inactive }] 1 =
      [1] ∧
    topValidators
        [{ identityKey := 2, votingPower := 10, state := ValidatorState.Inactive },
         { identityKey := 1, votingPower := 10, state := ValidatorState.Inactive }] 1 ≠
      specRankedTop
        [{ identityKey := 2, votingPower := 10, state := ValidatorState.Inactive },
         { identityKey := 1, votingPower := 10, state := ValidatorState.Inactive }] 1 := by
  decide

/-! ## C7: unbonding expiry versus promotion to the top set -/

/-- C7 (amended).  In `end_epoch`'s rotation, a validator in state
`Unbonding{u}` with `u ≤ current_epoch` is set to Inactive exactly
when it is not in the top `validator_limit` by voting power; when it
is in the top set, the promotion branch wins and it becomes Active
instead. -/
theorem rotate_unbonding_expiry (top : List Nat) (cur ue : Nat) (v : ValidatorStatus)
    (u : Nat) (hv : v.state = ValidatorState.Unbonding u) (hu : u ≤ cur) :
    (rotateStatus top cur ue v).state =
      if v.identityKey ∈ top then ValidatorState.Active else ValidatorState.Inactive := by
  by_cases hm : v.identityKey ∈ top
  · simp [rotateStatus, hv, ValidatorState.isUnbonding, hm]
  · simp [rotateStatus, hv, ValidatorState.isUnbonding, hm, hu]

/-- Witness for the amended C7 at a concrete expired-unbonding
validator inside the top set. -/
theorem rotate_unbonding_expiry_witness :
    (rotateStatus [1] 0 2
        { identityKey := 1, votingPower := 5,
          state := ValidatorState.Unbonding 0 }).state =
      if (1 : Nat) ∈ [1] then ValidatorState.Active else ValidatorState.Inactive :=
  rotate_unbonding_expiry [1] 0 2
    { identityKey := 1, votingPower := 5, state := ValidatorState.Unbonding 0 } 0 rfl
    (by decide)

/-- Concrete validator for the C7 counterexample: in state
`Unbonding{0}` at the end of epoch `0` (so `u = 0 ≤ current_epoch =
1`), and the only validator, hence in the top set. -/
def infoU : ValidatorInfo :=
  { identityKey := 1, consensusKey := 1, rateData := rateW,
    status :=
      { identityKey := 1, votingPower := 100, state := ValidatorState.Unbonding 0 } }

/-- Concrete pending block at the last height of epoch 0. -/
def pbU : PendingBlock :=
  { PendingBlock.new [] [infoU] with height := some 9, epoch := some 0 }

/-- Concrete chain parameters: epoch duration 10, 2 unbonding
epochs, validator limit 1, slashing penalty 5. -/
def paramsU : ChainParams :=
  { epochDuration := 10, unbondingEpochs := 2, validatorLimit := 1,
    slashingPenalty := 5 }

/-- Counterexample for C7: running the full `end_epoch` on the
expired-unbonding validator `infoU`, which ranks inside the top
`validator_limit`, stages it as Active — not Inactive as the claim's
"irrespective of the top set" reading of the transition table
predicts. -/
theorem unbonding_expiry_top_counterexample :
    ((endEpoch extW readerW paramsU pbU).bind (fun pb => pb.nextValidatorStatuses)) =
      some [{ identityKey := 1, votingPower := 100, state := ValidatorState.Active }] ∧
    ValidatorState.Active ≠ ValidatorState.Inactive := by decide

/-! ## C10: byzantine-evidence handling in `begin_block` -/

theorem slashValidator_slashEvents {pb pb2 : PendingBlock} {ck penalty : Nat}
    (h : pb.slashValidator ck penalty = some pb2) :
    pb2.slashEvents = pb.slashEvents ++ [(ck, penalty)] := by
  unfold PendingBlock.slashValidator at h
  cases hf : pb.validatorInfos.find? (fun i => i.consensusKey = ck) with
  | none => rw [hf] at h; exact absurd h (by simp)
  | some info =>
      rw [hf] at h
      simp only [Option.some.injEq] at h
      rw [← h]

theorem slashFold_none_of_invalid (penalty : Nat) (ev : List (Option Nat)) :
    ∀ pb : PendingBlock, none ∈ ev → slashFold penalty ev pb = none := by
  induction ev with
  | nil => intro pb h; simp at h
  | cons e rest ih =>
      intro pb hmem
      cases e with
      | none => rfl
      | some ck =>
          have hrest : none ∈ rest := by
            rcases List.mem_cons.mp hmem with h | h
            · exact absurd h (by simp)
            · exact h
          show ((pb.slashValidator ck penalty).bind fun pb1 =>
            slashFold penalty rest pb1) = none
          cases hsv : pb.slashValidator ck penalty with
          | none => rfl
          | some pb1 => simpa using ih pb1 hrest

theorem slashFold_events (penalty : Nat) (ev : List (Option Nat)) :
    ∀ pb pb2 : PendingBlock, slashFold penalty ev pb = some pb2 →
      pb2.slashEvents = pb.slashEvents ++ ev.map (fun e => (e.getD 0, penalty)) := by
  induction ev with
  | nil =>
      intro pb pb2 h
      simp only [slashFold, List.foldlM_nil, Option.pure_def, Option.some.injEq] at h
      rw [← h]
      simp
  | cons e rest ih =>
      intro pb pb2 h
      cases e with
      | none => exact absurd h (by simp [slashFold])
      | some ck =>
          have h2 : ((pb.slashValidator ck penalty).bind fun pb1 =>
              slashFold penalty rest pb1) = some pb2 := h
          cases hsv : pb.slashValidator ck penalty with
          | none => rw [hsv] at h2; exact absurd h2 (by simp)
          | some pb1 =>
              rw [hsv] at h2
              simp only [Option.some_bind] at h2
              rw [ih pb1 pb2 h2, slashValidator_slashEvents hsv]
              simp

/-- C10.  If `begin_block` receives a byzantine-evidence entry whose
validator address is not a valid ed25519 public key (`none` here),
the worker fails fatally instead of skipping the entry or returning
a recoverable error; and whenever the evidence loop completes, every
slashing it performed used the one `slashing_penalty` value read
from the chain parameters before the loop. -/
theorem begin_block_evidence_handling (w : Worker) (reader : Reader)
    (params : ChainParams) (ev : List (Option Nat)) :
    (none ∈ ev → w.beginBlock reader params ev = none) ∧
    (∀ w2, w.beginBlock reader params ev = some w2 →
      ∃ pb, w2.pendingBlock = some pb ∧
        pb.slashEvents = ev.map (fun e => (e.getD 0, params.slashingPenalty))) := by
  unfold Worker.beginBlock
  by_cases hw : w.pendingBlock.isSome
  · rw [if_pos hw]
    exact ⟨fun _ => rfl, fun w2 h => absurd h (by simp)⟩
  · rw [if_neg hw]
    constructor
    · intro hmem
      have hz := slashFold_none_of_invalid params.slashingPenalty ev
        (PendingBlock.new w.noteCommitmentTree reader.validatorInfo) hmem
      rw [hz]
      rfl
    · intro w2 h
      cases hf : slashFold params.slashingPenalty ev
          (PendingBlock.new w.noteCommitmentTree reader.validatorInfo) with
      | none => rw [hf] at h; exact absurd h (by simp)
      | some pb =>
          rw [hf] at h
          simp only [Option.map_some', Option.some.injEq] at h
          refine ⟨pb, ?_, ?_⟩
          · rw [← h]
          · rw [slashFold_events params.slashingPenalty ev _ pb hf]
            simp [PendingBlock.new]

/-- Concrete reader whose validator table holds validator 1 with
consensus key 1. -/
def readerV : Reader := { readerW with validatorInfo := [infoW] }

/-- The pending block produced by `begin_block` on `readerV` after
slashing validator 1 with penalty 5. -/
def pbSlashedV : PendingBlock :=
  { PendingBlock.new [] [infoW] with
    slashedValidators := [1]
    machineStates := [(1, ValidatorState.Slashed)]
    slashEvents := [(1, 5)] }

/-- Witness for C10: one invalid evidence entry is fatal; one valid
entry slashes validator 1 with the chain parameters' penalty 5. -/
theorem begin_block_evidence_handling_witness :
    ((Worker.mk none []).beginBlock readerV paramsU [none] = none) ∧
    (Worker.mk (some pbSlashedV) []).pendingBlock = some pbSlashedV ∧
    pbSlashedV.slashEvents =
      [some 1].map (fun e => (e.getD 0, paramsU.slashingPenalty)) := by
  constructor
  · exact (begin_block_evidence_handling (Worker.mk none []) readerV paramsU
      [none]).1 (by decide)
  · obtain ⟨pb, hpb, hse⟩ :=
      (begin_block_evidence_handling (Worker.mk none []) readerV paramsU [some 1]).2
        (Worker.mk (some pbSlashedV) []) (by decide)
    simp only [Option.some.injEq] at hpb
    exact ⟨rfl, by rw [hpb]; exact hse⟩

/-! ## C8: the pending-block lifecycle -/

/-- C8 (amended).  Exactly one pending block exists between
`begin_block` (or `init_chain`) and the following `commit`:
`begin_block` fails fatally if a pending block already exists and
installs one on success; `end_block` and `commit` fail fatally if
none exists; `deliver_tx` fails fatally if none exists *provided
the transaction decodes and passes stateless and stateful
verification* (an invalid transaction is still rejected with a
per-transaction error before the pending block is touched); and
`commit` consumes the pending block, so none exists afterwards. -/
theorem pending_block_lifecycle (w : Worker) (ext : Ext) (reader : Reader)
    (params : ChainParams) (ev : List (Option Nat)) (height : Nat)
    (commitBlock : PendingBlock → Nat) :
    (w.pendingBlock ≠ none → w.beginBlock reader params ev = none) ∧
    (w.pendingBlock = none →
      w.endBlock ext reader params height = none ∧
      w.commit commitBlock = none ∧
      ∀ tx : Tx, tx.statelessOk = true → tx.statefulOk = true →
        w.deliverTx (some tx) = none) ∧
    (∀ w2 hash, w.commit commitBlock = some (w2, hash) → w2.pendingBlock = none) ∧
    (∀ w2, w.beginBlock reader params ev = some w2 → w2.pendingBlock ≠ none) := by
  refine ⟨?_, ?_, ?_, ?_⟩
  · intro hne
    unfold Worker.beginBlock
    rw [if_pos (Option.ne_none_iff_isSome.mp hne)]
  · intro hnone
    refine ⟨?_, ?_, ?_⟩
    · unfold Worker.endBlock
      rw [hnone]
    · unfold Worker.commit
      rw [hnone]
    · intro tx h1 h2
      unfold Worker.deliverTx
      rw [hnone]
      simp [h1, h2]
  · intro w2 hash h
    unfold Worker.commit at h
    cases hpb : w.pendingBlock with
    | none => rw [hpb] at h; exact absurd h (by simp)
    | some pb =>
        rw [hpb] at h
        simp only [Option.some.injEq, Prod.mk.injEq] at h
        rw [← h.1]
  · intro w2 h
    unfold Worker.beginBlock at h
    by_cases hw : w.pendingBlock.isSome
    · rw [if_pos hw] at h
      exact absurd h (by simp)
    · rw [if_neg hw] at h
      cases hf : slashFold params.slashingPenalty ev
          (PendingBlock.new w.noteCommitmentTree reader.validatorInfo) with
      | none => rw [hf] at h; exact absurd h (by simp)
      | some pb =>
          rw [hf] at h
          simp only [Option.map_some', Option.some.injEq] at h
          rw [← h]
          simp

/-- Counterexample for C8 as stated: with no pending block,
`deliver_tx` on an undecodable transaction returns the recoverable
per-transaction response code 1 — it does not fail fatally, because
decoding and verification run before the pending block is
touched. -/
theorem deliver_tx_no_pending_block_not_fatal :
    (Worker.mk none []).deliverTx none =
      some (Worker.mk none [], { code := 1, log := "decode" }) ∧
    (Worker.mk none []).deliverTx none ≠ none := by decide

/-- Witness for the amended C8 at concrete workers with and without
a pending block. -/
theorem pending_block_lifecycle_witness :
    (Worker.mk (some (PendingBlock.new [] [])) []).beginBlock readerW paramsU [] =
      none ∧
    ((Worker.mk none [] : Worker).endBlock extW readerW paramsU 0 = none ∧
      (Worker.mk none [] : Worker).commit (fun _ => 0) = none ∧
      (Worker.mk none [] : Worker).deliverTx (some txSpend7) = none) ∧
    (Worker.mk none [] : Worker).pendingBlock = none ∧
    (Worker.mk (some (PendingBlock.new [] readerW.validatorInfo)) [] :
      Worker).pendingBlock ≠ none := by
  refine ⟨?_, ?_, ?_, ?_⟩
  · exact (pending_block_lifecycle (Worker.mk (some (PendingBlock.new [] [])) [])
      extW readerW paramsU [] 0 (fun _ => 0)).1 (by decide)
  · obtain ⟨-, h2, -, -⟩ := pending_block_lifecycle (Worker.mk none []) extW readerW
      paramsU [] 0 (fun _ => 0)
    obtain ⟨he, hc, hd⟩ := h2 rfl
    exact ⟨he, hc, hd txSpend7 rfl rfl⟩
  · exact (pending_block_lifecycle (Worker.mk (some (PendingBlock.new [] [])) [])
      extW readerW paramsU [] 0 (fun _ => 0)).2.2.1 (Worker.mk none []) 0 (by decide)
  · exact (pending_block_lifecycle (Worker.mk none []) extW readerW paramsU [] 0
      (fun _ => 0)).2.2.2
      (Worker.mk (some (PendingBlock.new [] readerW.validatorInfo)) []) (by decide)

/-! ## Rotation lemmas and counting (C4, C6) -/

theorem rotateStatus_identityKey (top : List Nat) (cur ue : Nat) (v : ValidatorStatus) :
    (rotateStatus top cur ue v).identityKey = v.identityKey := by
  obtain ⟨k, p, st⟩ := v
  cases st <;> by_cases hm : k ∈ top <;>
    simp only [rotateStatus, ValidatorState.isUnbonding, hm] <;>
    (try split) <;> (try split) <;> simp_all

theorem rotateStatus_active_mem (top : List Nat) (cur ue : Nat) (v : ValidatorStatus)
    (h : (rotateStatus top cur ue v).state = ValidatorState.Active) :
    v.identityKey ∈ top := by
  by_cases hm : v.identityKey ∈ top
  · exact hm
  · exfalso
    obtain ⟨k, p, st⟩ := v
    simp only at hm
    cases st <;>
      simp only [rotateStatus, ValidatorState.isUnbonding, hm] at h <;>
      simp at h <;>
      (try split at h) <;>
      simp_all

/-- A Slashed status is left untouched by the rotation (C6). -/
theorem rotateStatus_slashed (top : List Nat) (cur ue : Nat) (v : ValidatorStatus)
    (h : v.state = ValidatorState.Slashed) : rotateStatus top cur ue v = v := by
  simp [rotateStatus, h, ValidatorState.isUnbonding]

theorem topValidators_length_le (statuses : List ValidatorStatus) (limit : Nat) :
    (topValidators statuses limit).length ≤ limit := by
  unfold topValidators
  rw [List.length_map, List.length_take]
  exact min_le_left _ _

/-- A list of statuses with pairwise distinct identity keys, all of
whose Active members have their key in `top`, has at most
`top.length` Active members. -/
theorem filter_active_length_le (l : List ValidatorStatus) (top : List Nat)
    (hnd : (l.map (fun v => v.identityKey)).Nodup)
    (hmem : ∀ v ∈ l, v.state = ValidatorState.Active → v.identityKey ∈ top) :
    (l.filter (fun v => v.state = ValidatorState.Active)).length ≤ top.length := by
  have hsub :
      ∀ k ∈ (l.filter (fun v => v.state = ValidatorState.Active)).map
        (fun v => v.identityKey), k ∈ top := by
    intro k hk
    simp only [List.mem_map] at hk
    obtain ⟨v, hv, hkey⟩ := hk
    rw [List.mem_filter] at hv
    exact hkey ▸ hmem v hv.1 (by simpa using hv.2)
  have hnd2 :
      ((l.filter (fun v => v.state = ValidatorState.Active)).map
        (fun v => v.identityKey)).Nodup :=
    List.Nodup.sublist (List.Sublist.map _ (List.filter_sublist l)) hnd
  calc (l.filter (fun v => v.state = ValidatorState.Active)).length
      = ((l.filter (fun v => v.state = ValidatorState.Active)).map
          (fun v => v.identityKey)).length := (List.length_map _ _).symm
    _ = ((l.filter (fun v => v.state = ValidatorState.Active)).map
          (fun v => v.identityKey)).toFinset.card :=
        (List.toFinset_card_of_nodup hnd2).symm
    _ ≤ top.toFinset.card := by
        apply Finset.card_le_card
        intro x hx
        exact List.mem_toFinset.mpr (hsub x (List.mem_toFinset.mp hx))
    _ ≤ top.length := List.toFinset_card_le top

/-- A successful loop iteration appends exactly one staged rate and
one staged status; for a Slashed validator they are the held copies
of the current rate and status. -/
theorem processValidator_shape (ctx : EpochCtx) (s s2 : LoopState)
    (info : ValidatorInfo) (h : processValidator ctx s info = some s2) :
    ∃ r st, s2.nextRates = s.nextRates ++ [r] ∧
      s2.nextStatuses = s.nextStatuses ++ [st] ∧
      (st.identityKey = info.identityKey ∨ st.identityKey = info.status.identityKey) ∧
      (info.status.state = ValidatorState.Slashed →
        st = info.status ∧ r = holdRate info.rateData ctx.nextEpochIndex) := by
  cases hstate : info.status.state with
  | Slashed =>
      simp only [processValidator, hstate, Option.some.injEq] at h
      exact ⟨holdRate info.rateData ctx.nextEpochIndex, info.status,
        by rw [← h], by rw [← h], Or.inr rfl, fun _ => ⟨rfl, rfl⟩⟩
  | Inactive =>
      simp only [processValidator, hstate, Option.some.injEq] at h
      exact ⟨holdRate info.rateData ctx.nextEpochIndex, info.status,
        by rw [← h], by rw [← h], Or.inr rfl,
        fun hs => absurd hs (by simp [hstate])⟩
  | Active =>
      obtain ⟨a, b, nst, hnst, hbranch, hs2⟩ :=
        processValidator_nonheld_some ctx s s2 info (by simp [hstate])
          (by simp [hstate]) h
      refine ⟨_, _, by rw [hs2], by rw [hs2], Or.inl rfl,
        fun hs => absurd hs (by simp [hstate])⟩
  | Unbonding u =>
      obtain ⟨a, b, nst, hnst, hbranch, hs2⟩ :=
        processValidator_nonheld_some ctx s s2 info (by simp [hstate])
          (by simp [hstate]) h
      refine ⟨_, _, by rw [hs2], by rw [hs2], Or.inl rfl,
        fun hs => absurd hs (by simp [hstate])⟩

/-- Shape of a successful run of the whole per-validator loop: one
staged status and one staged rate per validator, in validator
order. -/
theorem foldlM_processValidator_shape (ctx : EpochCtx) :
    ∀ (infos : List ValidatorInfo) (s s2 : LoopState),
      infos.foldlM (processValidator ctx) s = some s2 →
      ∃ stats rates,
        s2.nextStatuses = s.nextStatuses ++ stats ∧
        s2.nextRates = s.nextRates ++ rates ∧
        stats.length = infos.length ∧
        rates.length = infos.length ∧
        (∀ (i : Nat) (st : ValidatorStatus) (inf : ValidatorInfo),
          stats[i]? = some st → infos[i]? = some inf →
          (st.identityKey = inf.identityKey ∨
            st.identityKey = inf.status.identityKey)) ∧
        (∀ (i : Nat) (st : ValidatorStatus) (r : RateData) (inf : ValidatorInfo),
          stats[i]? = some st → rates[i]? = some r →
          infos[i]? = some inf → inf.status.state = ValidatorState.Slashed →
          st = inf.status ∧ r = holdRate inf.rateData ctx.nextEpochIndex) := by
  intro infos
  induction infos with
  | nil =>
      intro s s2 h
      simp only [List.foldlM_nil, Option.pure_def, Option.some.injEq] at h
      refine ⟨[], [], ?_, ?_, rfl, rfl, ?_, ?_⟩
      · rw [← h, List.append_nil]
      · rw [← h, List.append_nil]
      · intro i st inf hst hinf
        rw [List.getElem?_nil] at hst
        exact Option.noConfusion hst
      · intro i st r inf hst hrx hinf hsl
        rw [List.getElem?_nil] at hst
        exact Option.noConfusion hst
  | cons a l ih =>
      intro s s2 h
      rw [List.foldlM_cons] at h
      cases hp : processValidator ctx s a with
      | none => rw [hp] at h; exact absurd h (by simp)
      | some s1 =>
          rw [hp] at h
          have h3 : l.foldlM (processValidator ctx) s1 = some s2 := h
          obtain ⟨stats, rates, h1, h2, hl1, hl2, hkey, hslash⟩ := ih s1 s2 h3
          obtain ⟨r, st, hr, hst, hkey0, hslash0⟩ := processValidator_shape ctx s s1 a hp
          refine ⟨st :: stats, r :: rates, ?_, ?_, ?_, ?_, ?_, ?_⟩
          · rw [h1, hst]
            simp
          · rw [h2, hr]
            simp
          · simp [hl1]
          · simp [hl2]
          · intro i stx infx hstx hinfx
            match i with
            | 0 =>
                simp only [List.getElem?_cons_zero, Option.some.injEq] at hstx hinfx
                rw [← hstx, ← hinfx]
                exact hkey0
            | i + 1 =>
                simp only [List.getElem?_cons_succ] at hstx hinfx
                exact hkey i stx infx hstx hinfx
          · intro i stx rx infx hstx hrx hinfx hsl
            match i with
            | 0 =>
                simp only [List.getElem?_cons_zero, Option.some.injEq] at hstx hrx hinfx
                rw [← hstx, ← hrx, ← hinfx]
                rw [← hinfx] at hsl
                exact hslash0 hsl
            | i + 1 =>
                simp only [List.getElem?_cons_succ] at hstx hrx hinfx
                exact hslash i stx rx infx hstx hrx hinfx hsl

/-- Destructuring a successful `end_epoch`: the staged outputs come
from the per-validator loop over the pending block's validator info
and the rotation of its staged statuses against the top set. -/
theorem endEpoch_some_elim (ext : Ext) (reader : Reader) (params : ChainParams)
    (pb pb2 : PendingBlock) (h : endEpoch ext reader params pb = some pb2) :
    ∃ (height prevEpoch supply : Nat) (s : LoopState),
      pb.height = some height ∧ pb.epoch = some prevEpoch ∧
      reader.assetLookup AssetId.staking = some supply ∧
      pb.validatorInfos.foldlM
        (processValidator
          { ext := ext, reader := reader, machine := pb.machineStates,
            merged := mergeDelegationChanges reader.delegationChanges
              pb.delegationChanges,
            currentBase := reader.baseRateData (prevEpoch + 1),
            nextBase := ext.baseNext (reader.baseRateData (prevEpoch + 1))
              BASE_REWARD_RATE,
            nextEpochIndex := prevEpoch + 1 + 1 })
        { stakingSupply := supply, supplyUpdates := pb.supplyUpdates,
          nextRates := [], nextStatuses := [], rewardNotes := [] } = some s ∧
      pb2.nextRates = some s.nextRates ∧
      pb2.nextValidatorStatuses = some
        (s.nextStatuses.map
          (rotateStatus (topValidators s.nextStatuses params.validatorLimit)
            (prevEpoch + 1) params.unbondingEpochs)) := by
  unfold endEpoch at h
  cases hh : pb.height with
  | none => rw [hh] at h; exact absurd h (by simp)
  | some height =>
  cases he : pb.epoch with
  | none => rw [hh, he] at h; exact absurd h (by simp)
  | some prevEpoch =>
  rw [hh, he] at h
  dsimp only at h
  cases hsup : reader.assetLookup AssetId.staking with
  | none => rw [hsup] at h; exact absurd h (by simp)
  | some supply =>
  rw [hsup] at h
  dsimp only at h
  cases hf : pb.validatorInfos.foldlM
      (processValidator
        { ext := ext, reader := reader, machine := pb.machineStates,
          merged := mergeDelegationChanges reader.delegationChanges
            pb.delegationChanges,
          currentBase := reader.baseRateData (prevEpoch + 1),
          nextBase := ext.baseNext (reader.baseRateData (prevEpoch + 1))
            BASE_REWARD_RATE,
          nextEpochIndex := prevEpoch + 1 + 1 })
      { stakingSupply := supply, supplyUpdates := pb.supplyUpdates,
        nextRates := [], nextStatuses := [], rewardNotes := [] } with
  | none => rw [hf] at h; exact absurd h (by simp)
  | some s =>
  rw [hf] at h
  dsimp only at h
  injection h with h
  subst h
  exact ⟨height, prevEpoch, supply, s, rfl, rfl, rfl, hf, rfl, rfl⟩

/-- C4.  For every input state and chain-parameter value
`validator_limit`, after `end_epoch` completes, the number of
validators whose staged next status has state Active is at most
`validator_limit` (assuming the per-validator data of the state
machine carries pairwise distinct identity keys and each info's
status carries its own identity key). -/
theorem end_epoch_validator_limit_cap (ext : Ext) (reader : Reader)
    (params : ChainParams) (pb pb2 : PendingBlock) (sts : List ValidatorStatus)
    (hrun : endEpoch ext reader params pb = some pb2)
    (hsts : pb2.nextValidatorStatuses = some sts)
    (hnd : (pb.validatorInfos.map (fun i => i.identityKey)).Nodup)
    (hkeys : ∀ i ∈ pb.validatorInfos, i.status.identityKey = i.identityKey) :
    (sts.filter (fun v => v.state = ValidatorState.Active)).length ≤
      params.validatorLimit := by
  obtain ⟨height, prevEpoch, supply, s, hh, he, hsup, hfold, hnr, hnvs⟩ :=
    endEpoch_some_elim ext reader params pb pb2 hrun
  rw [hsts] at hnvs
  injection hnvs with hnvs
  obtain ⟨stats, rates, hst, hr, hl1, hl2, hkey, hslash⟩ :=
    foldlM_processValidator_shape _ pb.validatorInfos _ s hfold
  rw [List.nil_append] at hst hr
  have hmapkeys : stats.map (fun v => v.identityKey) =
      pb.validatorInfos.map (fun i => i.identityKey) := by
    apply List.ext_getElem?
    intro i
    rw [List.getElem?_map, List.getElem?_map]
    cases hsi : stats[i]? with
    | none =>
        have hlen : stats.length ≤ i := by
          by_contra hcon
          rw [List.getElem?_eq_getElem (by omega)] at hsi
          exact Option.noConfusion hsi
        rw [List.getElem?_eq_none (by omega)]
        rfl
    | some st =>
        have hi : i < stats.length := by
          by_contra hcon
          rw [List.getElem?_eq_none (by omega)] at hsi
          exact Option.noConfusion hsi
        have hi2 : i < pb.validatorInfos.length := by omega
        obtain ⟨inf, hinf⟩ : ∃ inf, pb.validatorInfos[i]? = some inf :=
          ⟨_, List.getElem?_eq_getElem hi2⟩
        rw [hinf]
        have hmem : inf ∈ pb.validatorInfos := by
          have := List.getElem?_eq_getElem hi2
          rw [this] at hinf
          injection hinf with hinf
          rw [← hinf]
          exact List.getElem_mem hi2
        rcases hkey i st inf hsi hinf with hk | hk
        · simp only [Option.map_some']
          rw [hk]
        · simp only [Option.map_some']
          rw [hk, hkeys inf hmem]
  have hstsfrom : sts = s.nextStatuses.map
      (rotateStatus (topValidators s.nextStatuses params.validatorLimit)
        (prevEpoch + 1) params.unbondingEpochs) := hnvs
  have hndsts : (sts.map (fun v => v.identityKey)).Nodup := by
    rw [hstsfrom, List.map_map]
    have hptw : ∀ v ∈ s.nextStatuses,
        ((fun v : ValidatorStatus => v.identityKey) ∘
          (rotateStatus (topValidators s.nextStatuses params.validatorLimit)
            (prevEpoch + 1) params.unbondingEpochs)) v =
          (fun v : ValidatorStatus => v.identityKey) v := by
      intro v hv
      exact rotateStatus_identityKey _ _ _ v
    rw [List.map_congr_left hptw, hst, hmapkeys]
    exact hnd
  have hactive : ∀ v ∈ sts, v.state = ValidatorState.Active →
      v.identityKey ∈ topValidators s.nextStatuses params.validatorLimit := by
    intro v hv hva
    rw [hstsfrom] at hv
    rw [List.mem_map] at hv
    obtain ⟨w, hw, hvw⟩ := hv
    rw [← hvw] at hva
    rw [← hvw, rotateStatus_identityKey]
    exact rotateStatus_active_mem _ _ _ w hva
  exact le_trans
    (filter_active_length_le sts
      (topValidators s.nextStatuses params.validatorLimit) hndsts hactive)
    (topValidators_length_le s.nextStatuses params.validatorLimit)

/-- The pending block produced by `end_epoch` on `pbU`. -/
def pbU2 : PendingBlock :=
  { pbU with
    supplyUpdates := [(AssetId.delegation 1, 100), (AssetId.staking, 1000)]
    nextRates := some [rateW]
    nextBaseRate := some { epochIndex := 1, baseRewardRate := 0, baseExchangeRate := 0 }
    nextValidatorStatuses :=
      some [{ identityKey := 1, votingPower := 100, state := ValidatorState.Active }] }

/-- Witness for C4 at the one-validator block `pbU` with
`validator_limit = 1`. -/
theorem end_epoch_validator_limit_cap_witness :
    (([{ identityKey := 1, votingPower := 100, state := ValidatorState.Active }] :
        List ValidatorStatus).filter
      (fun v => v.state = ValidatorState.Active)).length ≤ paramsU.validatorLimit :=
  end_epoch_validator_limit_cap extW readerW paramsU pbU pbU2
    [{ identityKey := 1, votingPower := 100, state := ValidatorState.Active }]
    (by decide) (by decide) (by decide) (by decide)

/-! ## C6: slashed validators are terminal -/

/-- The staged next status at position `i` of the validator list. -/
def stagedStatusAt (pb : PendingBlock) (i : Nat) : Option ValidatorStatus :=
  pb.nextValidatorStatuses.bind (fun l => l[i]?)

/-- The staged next rate at position `i` of the validator list. -/
def stagedRateAt (pb : PendingBlock) (i : Nat) : Option RateData :=
  pb.nextRates.bind (fun l => l[i]?)

/-- The validator info at position `i` of the validator list. -/
def infoAt (pb : PendingBlock) (i : Nat) : Option ValidatorInfo :=
  pb.validatorInfos[i]?

/-- One `end_epoch` call holds a Slashed validator fixed: its staged
status is its current status and its staged rate is its current
rate with only `epoch_index` set to the next epoch. -/
theorem endEpoch_slashed_held (ext : Ext) (reader : Reader) (params : ChainParams)
    (pb pb2 : PendingBlock) (i : Nat) (info : ValidatorInfo)
    (hrun : endEpoch ext reader params pb = some pb2)
    (hinfo : infoAt pb i = some info)
    (hsl : info.status.state = ValidatorState.Slashed) :
    stagedStatusAt pb2 i = some info.status ∧
    ∃ e, pb.epoch = some e ∧
      stagedRateAt pb2 i = some (holdRate info.rateData (e + 1 + 1)) := by
  obtain ⟨height, prevEpoch, supply, s, hh, he, hsup, hfold, hnr, hnvs⟩ :=
    endEpoch_some_elim ext reader params pb pb2 hrun
  obtain ⟨stats, rates, hst, hr, hl1, hl2, hkey, hslash⟩ :=
    foldlM_processValidator_shape _ pb.validatorInfos _ s hfold
  rw [List.nil_append] at hst hr
  have hi : i < pb.validatorInfos.length := by
    by_contra hcon
    unfold infoAt at hinfo
    rw [List.getElem?_eq_none (by omega)] at hinfo
    exact Option.noConfusion hinfo
  have hsti : stats[i]? = some (stats.get ⟨i, by omega⟩) :=
    List.getElem?_eq_getElem (by omega)
  have hri : rates[i]? = some (rates.get ⟨i, by omega⟩) :=
    List.getElem?_eq_getElem (by omega)
  obtain ⟨hsteq, hreq⟩ :=
    hslash i (stats.get ⟨i, by omega⟩) (rates.get ⟨i, by omega⟩) info hsti hri
      hinfo hsl
  constructor
  · unfold stagedStatusAt
    rw [hnvs]
    have : (s.nextStatuses.map
        (rotateStatus (topValidators s.nextStatuses params.validatorLimit)
          (prevEpoch + 1) params.unbondingEpochs))[i]? =
        some (rotateStatus (topValidators s.nextStatuses params.validatorLimit)
          (prevEpoch + 1) params.unbondingEpochs (stats.get ⟨i, by omega⟩)) := by
      rw [List.getElem?_map, hst, hsti]
      rfl
    rw [show (some (s.nextStatuses.map
        (rotateStatus (topValidators s.nextStatuses params.validatorLimit)
          (prevEpoch + 1) params.unbondingEpochs)) :
        Option (List ValidatorStatus)).bind (fun l => l[i]?) =
        (s.nextStatuses.map
          (rotateStatus (topValidators s.nextStatuses params.validatorLimit)
            (prevEpoch + 1) params.unbondingEpochs))[i]? from rfl, this,
      rotateStatus_slashed _ _ _ _ (by rw [hsteq]; exact hsl), hsteq]
  · refine ⟨prevEpoch, he, ?_⟩
    unfold stagedRateAt
    rw [hnr]
    rw [show (some s.nextRates : Option (List RateData)).bind (fun l => l[i]?) =
      s.nextRates[i]? from rfl, hr, hri, hreq]

/-- C6.  Once a validator's state is Slashed entering `end_epoch`,
the call never changes that state (the staged status is the current
status, still Slashed) and never recomputes its RateData (the staged
rate is a copy of the current rate with only `epoch_index` set to
the next epoch); and along any chain of subsequent `end_epoch` calls
that feed the staged status and rate back in, the status stays equal
to the original and the rate never changes in any field other than
`epoch_index`. -/
theorem end_epoch_slashed_terminal (ext : Ext) (params : ChainParams)
    (readers : Nat → Reader) (n : Nat) (pbs pbs2 : Nat → PendingBlock)
    (idx : Nat → Nat) (infos : Nat → ValidatorInfo)
    (hrun : ∀ k, k ≤ n → endEpoch ext (readers k) params (pbs k) = some (pbs2 k))
    (hinfo : ∀ k, k ≤ n → infoAt (pbs k) (idx k) = some (infos k))
    (hcarry : ∀ k, k < n →
      some (infos (k + 1)).status = stagedStatusAt (pbs2 k) (idx k) ∧
      some (infos (k + 1)).rateData = stagedRateAt (pbs2 k) (idx k))
    (hsl : (infos 0).status.state = ValidatorState.Slashed) :
    ∀ k, k ≤ n →
      (infos k).status = (infos 0).status ∧
      stagedStatusAt (pbs2 k) (idx k) = some ((infos 0).status) ∧
      (infos k).rateData.identityKey = (infos 0).rateData.identityKey ∧
      (infos k).rateData.validatorRewardRate =
        (infos 0).rateData.validatorRewardRate ∧
      (infos k).rateData.validatorExchangeRate =
        (infos 0).rateData.validatorExchangeRate ∧
      ∃ e, (pbs k).epoch = some e ∧
        stagedRateAt (pbs2 k) (idx k) =
          some (holdRate (infos k).rateData (e + 1 + 1)) := by
  intro k
  induction k with
  | zero =>
      intro hk
      obtain ⟨hs, e, he, hrt⟩ :=
        endEpoch_slashed_held ext (readers 0) params (pbs 0) (pbs2 0) (idx 0)
          (infos 0) (hrun 0 (by omega)) (hinfo 0 (by omega)) hsl
      exact ⟨rfl, hs, rfl, rfl, rfl, e, he, hrt⟩
  | succ k ihk =>
      intro hk
      obtain ⟨hstat, hstaged, hf1, hf2, hf3, e, he, hrate⟩ := ihk (by omega)
      obtain ⟨hc1, hc2⟩ := hcarry k (by omega)
      have hstat1 : (infos (k + 1)).status = (infos 0).status := by
        rw [hstaged] at hc1
        injection hc1
      have hsl1 : (infos (k + 1)).status.state = ValidatorState.Slashed := by
        rw [hstat1]
        exact hsl
      obtain ⟨hs2, e2, he2, hr2⟩ :=
        endEpoch_slashed_held ext (readers (k + 1)) params (pbs (k + 1))
          (pbs2 (k + 1)) (idx (k + 1)) (infos (k + 1)) (hrun (k + 1) hk)
          (hinfo (k + 1) hk) hsl1
      have hrd : (infos (k + 1)).rateData = holdRate (infos k).rateData (e + 1 + 1) := by
        rw [hrate] at hc2
        injection hc2
      refine ⟨hstat1, by rw [hs2, hstat1], ?_, ?_, ?_, e2, he2, hr2⟩
      · rw [hrd]
        exact hf1
      · rw [hrd]
        exact hf2
      · rw [hrd]
        exact hf3

/-- Concrete slashed validator for the C6 witness. -/
def infoS : ValidatorInfo :=
  { identityKey := 1, consensusKey := 1, rateData := rateW,
    status :=
      { identityKey := 1, votingPower := 100, state := ValidatorState.Slashed } }

/-- Rate `rateW` held to epoch 2. -/
def rateW2 : RateData := { rateW with epochIndex := 2 }

/-- Info `infoS` one epoch later, carrying the staged held rate. -/
def infoS2 : ValidatorInfo := { infoS with rateData := rateW2 }

/-- The C6 witness chain's first pending block (end of epoch 0). -/
def pbS0 : PendingBlock :=
  { PendingBlock.new [] [infoS] with height := some 9, epoch := some 0 }

/-- The C6 witness chain's second pending block (end of epoch 1). -/
def pbS1 : PendingBlock :=
  { PendingBlock.new [] [infoS2] with height := some 19, epoch := some 1 }

/-- The `end_epoch` output on `pbS0`. -/
def pbT0 : PendingBlock :=
  { pbS0 with
    supplyUpdates := [(AssetId.staking, 1000)]
    nextRates := some [rateW2]
    nextBaseRate := some { epochIndex := 1, baseRewardRate := 0, baseExchangeRate := 0 }
    nextValidatorStatuses := some [infoS.status] }

/-- The `end_epoch` output on `pbS1`. -/
def pbT1 : PendingBlock :=
  { pbS1 with
    supplyUpdates := [(AssetId.staking, 1000)]
    nextRates := some [{ rateW with epochIndex := 3 }]
    nextBaseRate := some { epochIndex := 2, baseRewardRate := 0, baseExchangeRate := 0 }
    nextValidatorStatuses := some [infoS.status] }

/-- The C6 witness chain of input pending blocks. -/
def pbsW : Nat → PendingBlock := fun k =>
  match k with
  | 0 => pbS0
  | _ => pbS1

/-- The C6 witness chain of `end_epoch` outputs. -/
def pbs2W : Nat → PendingBlock := fun k =>
  match k with
  | 0 => pbT0
  | _ => pbT1

/-- The C6 witness chain of validator infos. -/
def infosW : Nat → ValidatorInfo := fun k =>
  match k with
  | 0 => infoS
  | _ => infoS2

/-- Witness for C6 along a concrete two-call chain: the status stays
the original Slashed status and the rate fields other than
`epoch_index` never change. -/
theorem end_epoch_slashed_terminal_witness :
    infoS2.status = infoS.status ∧
    stagedStatusAt pbT1 0 = some infoS.status ∧
    rateW2.validatorExchangeRate = rateW.validatorExchangeRate := by
  have h := end_epoch_slashed_terminal extW paramsU (fun _ => readerW) 1 pbsW pbs2W
    (fun _ => 0) infosW
    (by
      intro k hk
      match k with
      | 0 => decide
      | 1 => decide
      | k + 2 => omega)
    (by
      intro k hk
      match k with
      | 0 => decide
      | 1 => decide
      | k + 2 => omega)
    (by
      intro k hk
      match k with
      | 0 => exact ⟨by decide, by decide⟩
      | k + 1 => omega)
    (by decide) 1 (by decide)
  obtain ⟨h1, h2, -, -, h3, -⟩ := h
  exact ⟨h1, h2, h3⟩

end Penumbra
